import Mathlib

/-!
Verification of the diff-driven typing-replay engine of the
`presentation-tools` VS Code extension.

The development shallowly embeds:

* the character diff the engine consumes (`diffChars` from the npm `diff`
  package, version 5.1.x — a greedy Myers O(ND) diff over UTF-16 code
  units, with jsdiff's identity shortcut, component merging, and
  removed-before-added output convention);
* the two-pass replay `applyDiffWithTyping` of `src/typingEffect.ts`
  (stage 1: atomic removals located by `indexOf`; stage 2: a fresh diff
  followed by paced single-character insertions);
* the caller `loadSnapshot` of `src/snapshotCommands.ts` (replay followed
  by one unconditional full-buffer replace with the snapshot content);
* the one-pass variant of `applyDiffWithTyping` (the repository's other
  revision of `typingEffect.ts`), whose insertion loop treats a CR+LF
  pair as one indivisible typed unit;
* the auto-formatting save/disable/restore bracket of `typingEffect.ts`.

Documents are `List Char`; timing delays are exact rationals; each atomic
buffer mutation and each pacing delay is recorded as a `BufEvent`.
-/

namespace PTools

/-- A diff component while the Myers path is being built: a run length
together with the jsdiff `added`/`removed` flags (JS `undefined` is
modelled as `false`). Mirrors jsdiff's path components. -/
structure Comp where
  count : Nat
  added : Bool
  removed : Bool
deriving DecidableEq, Repr

/-- A Myers search path: jsdiff's `{oldPos, lastComponent}`, with the
linked list of components kept as a Lean list whose head is
`lastComponent`. -/
structure PathEntry where
  oldPos : Int
  comps : List Comp
deriving DecidableEq, Repr

/-- One part of the finished diff, as returned by jsdiff `diffChars`:
`{value, count, added, removed}` (JS `undefined` flags are `false`). -/
structure DiffPart where
  value : List Char
  count : Nat
  added : Bool
  removed : Bool
deriving DecidableEq, Repr

/-- Length of the longest common prefix of two token lists; this is the
loop inside jsdiff's `extractCommon`. -/
def commonPrefixLen : List Char → List Char → Nat
  | a :: as, b :: bs => if a = b then commonPrefixLen as bs + 1 else 0
  | _, _ => 0

/-- jsdiff `Diff.prototype.addToPath`: extend a path with one added or
removed token, merging with the last component when it has the same
flags. -/
def addToPath (p : PathEntry) (added removed : Bool) (oldPosInc : Int) : PathEntry :=
  match p.comps with
  | last :: prev =>
    if last.added = added && last.removed = removed then
      ⟨p.oldPos + oldPosInc, ⟨last.count + 1, added, removed⟩ :: prev⟩
    else
      ⟨p.oldPos + oldPosInc, ⟨1, added, removed⟩ :: last :: prev⟩
  | [] => ⟨p.oldPos + oldPosInc, [⟨1, added, removed⟩]⟩

/-- jsdiff `Diff.prototype.extractCommon`: slide down the diagonal
`diag`, consuming equal tokens of `news` and `olds`; returns the updated
path and the new `newPos`. -/
def extractCommon (p : PathEntry) (news olds : List Char) (diag : Int) :
    PathEntry × Int :=
  let oldPos := p.oldPos
  let newPos := oldPos - diag
  let c := commonPrefixLen (news.drop (newPos + 1).toNat) (olds.drop (oldPos + 1).toNat)
  let comps := if 0 < c then Comp.mk c false false :: p.comps else p.comps
  (⟨oldPos + c, comps⟩, newPos + c)

/-- The sparse `bestPath` array of jsdiff's main loop, indexed by
diagonal. -/
def setPath (m : Int → Option PathEntry) (d : Int) (v : Option PathEntry) :
    Int → Option PathEntry :=
  fun x => if x = d then v else m x

/-- State of jsdiff's main loop: the per-diagonal best paths and the
`minDiagonalToConsider` / `maxDiagonalToConsider` pruning bounds
(`±(maxEditLength+1)` plays the role of `±Infinity`). -/
structure DiffState where
  best : Int → Option PathEntry
  minD : Int
  maxD : Int

/-- The body of jsdiff's per-diagonal step inside `execEditLength`:
either updates the loop state or, when both strings are exhausted,
returns the finished component chain (head = last component). -/
def execDiag (news olds : List Char) (st : DiffState) (d : Int) :
    DiffState ⊕ List Comp :=
  let newLen : Int := news.length
  let oldLen : Int := olds.length
  let removePath := st.best (d - 1)
  let addPath := st.best (d + 1)
  let best1 := if (removePath).isSome then setPath st.best (d - 1) none else st.best
  let canAdd := match addPath with
    | some ap => decide (0 ≤ ap.oldPos - d) && decide (ap.oldPos - d < newLen)
    | none => false
  let canRemove := match removePath with
    | some rp => decide (rp.oldPos + 1 < oldLen)
    | none => false
  if !canAdd && !canRemove then
    Sum.inl ⟨setPath best1 d none, st.minD, st.maxD⟩
  else
    let basePath :=
      if !canRemove || (canAdd &&
          decide ((removePath.getD ⟨0, []⟩).oldPos + 1 < (addPath.getD ⟨0, []⟩).oldPos)) then
        addToPath (addPath.getD ⟨0, []⟩) true false 0
      else
        addToPath (removePath.getD ⟨0, []⟩) false true 1
    let ec := extractCommon basePath news olds d
    let basePath' := ec.1
    let newPos := ec.2
    if basePath'.oldPos + 1 ≥ oldLen ∧ newPos + 1 ≥ newLen then
      Sum.inr basePath'.comps
    else
      let best2 := setPath best1 d (some basePath')
      let maxD' := if basePath'.oldPos + 1 ≥ oldLen then min st.maxD (d - 1) else st.maxD
      let minD' := if newPos + 1 ≥ newLen then max st.minD (d + 1) else st.minD
      Sum.inl ⟨best2, minD', maxD'⟩

/-- The diagonal `for` loop of `execEditLength`: runs `d, d+2, …` while
`d ≤ min maxDiagonalToConsider editLength`, re-reading the (possibly
shrunk) upper bound each iteration. `fuel` bounds the iteration count. -/
def execDiags (news olds : List Char) (el : Int) :
    Nat → Int → DiffState → DiffState ⊕ List Comp
  | 0, _, st => Sum.inl st
  | fuel + 1, d, st =>
    if d > min st.maxD el then Sum.inl st
    else
      match execDiag news olds st d with
      | Sum.inr comps => Sum.inr comps
      | Sum.inl st' => execDiags news olds el fuel (d + 2) st'

/-- The `while (editLength <= maxEditLength)` loop of jsdiff's `diff`.
`fuel` is the number of edit lengths still allowed. -/
def diffLoop (news olds : List Char) : Nat → Int → DiffState → List Comp
  | 0, _, _ => []
  | fuel + 1, el, st =>
    let start := max st.minD (-el)
    match execDiags news olds el (news.length + olds.length + 2) start st with
    | Sum.inr comps => comps
    | Sum.inl st' => diffLoop news olds fuel (el + 1) st'

/-- jsdiff `buildValues` main walk: assign `value` slices to each
component (added/common from the new string, removed from the old one),
swapping each removed part in front of an immediately preceding added
part. `acc` holds the output parts in reverse order. -/
def buildGo (news olds : List Char) :
    List Comp → Nat → Nat → List DiffPart → List DiffPart
  | [], _, _, acc => acc.reverse
  | c :: rest, newPos, oldPos, acc =>
    if c.removed then
      let v := (olds.drop oldPos).take c.count
      let part : DiffPart := ⟨v, c.count, false, true⟩
      let acc' := match acc with
        | prev :: tail => if prev.added then prev :: part :: tail else part :: prev :: tail
        | [] => [part]
      buildGo news olds rest newPos (oldPos + c.count) acc'
    else
      let v := (news.drop newPos).take c.count
      let part : DiffPart := ⟨v, c.count, c.added, false⟩
      let oldPos' := if c.added then oldPos else oldPos + c.count
      buildGo news olds rest (newPos + c.count) oldPos' (part :: acc)

/-- jsdiff `buildValues` final special case: an empty trailing change
part is merged into its predecessor (never fires for the character diff,
kept for faithfulness). -/
def finalMerge (ps : List DiffPart) : List DiffPart :=
  match ps.reverse with
  | last :: prev :: tail =>
    if (last.added || last.removed) && last.value = [] then
      ({ prev with value := prev.value ++ last.value } :: tail).reverse
    else ps
  | _ => ps

/-- jsdiff `buildValues(self, lastComponent, newString, oldString)`:
`comps` is the component chain with the *last* component first. -/
def buildValues (comps : List Comp) (news olds : List Char) : List DiffPart :=
  finalMerge (buildGo news olds comps.reverse 0 0 [])

/-- The function `diffChars(oldStr, newStr)` of the npm `diff` package
(5.1.x): the character tokenizer (`split('')`), the editLength-0
identity shortcut, and the greedy Myers loop. Arguments follow jsdiff's
`(old, new)` order. -/
def diffChars (olds news : List Char) : List DiffPart :=
  let newLen := news.length
  let oldLen := olds.length
  let maxEditLength := newLen + oldLen
  let seed : PathEntry := ⟨-1, []⟩
  let ec := extractCommon seed news olds 0
  let seed' := ec.1
  let newPos := ec.2
  if seed'.oldPos + 1 ≥ (oldLen : Int) ∧ newPos + 1 ≥ (newLen : Int) then
    [⟨news, newLen, false, false⟩]
  else
    let st : DiffState :=
      ⟨setPath (fun _ => none) 0 (some seed'),
        -(Int.ofNat maxEditLength + 1), Int.ofNat maxEditLength + 1⟩
    buildValues (diffLoop news olds maxEditLength 1 st) news olds

/-- Coerce a Lean string literal to the token list the engine works on. -/
def chars (s : String) : List Char := s.data

/-- One observable action of the replay against the live buffer: an
atomic insertion, an atomic deletion, the caller's full-buffer replace,
a pacing delay (`setTimeout`), or the advisory final `revealRange`. -/
inductive BufEvent where
  | ins (pos : Nat) (text : List Char)
  | del (pos len : Nat)
  | replaceAll (text : List Char)
  | wait (ms : ℚ)
  | reveal
deriving DecidableEq, Repr

/-- JS `String.prototype.indexOf(pat, start)`: the first index `i ≥ start`
(clamped to the length for the empty pattern) at which `pat` occurs in
`doc`; `none` models the `-1` result. -/
def indexOfFrom (doc pat : List Char) (start : Nat) : Option Nat :=
  if pat = [] then some (min start doc.length)
  else (List.range doc.length).find? fun i =>
    decide (start ≤ i) && pat.isPrefixOf (doc.drop i)

/-- One iteration of stage 1 of `applyDiffWithTyping`
(`typingEffect.ts` lines 103–135): unchanged and added parts are
skipped; a removed part is located with `indexOf` on the current
document text and, when found, removed with a single `WorkspaceEdit`
followed by a `delayMs * 2` pause; when not found it is silently
skipped. -/
def stage1Step (doc : List Char) (p : DiffPart) (delayMs : ℚ) :
    List Char × List BufEvent :=
  if p.added = false ∧ p.removed = false then (doc, [])
  else if p.removed then
    match indexOfFrom doc p.value 0 with
    | some removePos =>
      (doc.take removePos ++ doc.drop (removePos + p.value.length),
        [BufEvent.del removePos p.value.length, BufEvent.wait (delayMs * 2)])
    | none => (doc, [])
  else (doc, [])

/-- Stage 1 of `applyDiffWithTyping`: fold `stage1Step` over the diff
parts in order, concatenating the issued events. -/
def stage1 : List Char → List DiffPart → ℚ → List Char × List BufEvent
  | doc, [], _ => (doc, [])
  | doc, p :: ps, delayMs =>
    let r := stage1Step doc p delayMs
    let rest := stage1 r.1 ps delayMs
    (rest.1, r.2 ++ rest.2)

/-- The per-character position of the stage-2 typing loop
(`typingEffect.ts` lines 191–205): the first character (`i = 0`) goes to
the captured `insertPosition`; each later one re-derives its position by
searching for the already-typed prefix `full.take i` from
`currentPosition`, falling back to `insertPosition`. -/
def typePos (full : List Char) (insertPosition currentPosition : Nat)
    (doc : List Char) (i : Nat) : Nat :=
  if i = 0 then insertPosition
  else
    match indexOfFrom doc (full.take i) currentPosition with
    | some prevTextPos => prevTextPos + i
    | none => insertPosition

/-- The body of the stage-2 character loop: type the remaining suffix
`rem` of the added span, one character per atomic insertion. -/
def typeCharsGo (full : List Char) (insertPosition currentPosition : Nat)
    (delayMs : ℚ) : List Char → Nat → List Char → List Char × List BufEvent
  | [], _, doc => (doc, [])
  | c :: rem, i, doc =>
    let pos := typePos full insertPosition currentPosition doc i
    let doc' := doc.take pos ++ [c] ++ doc.drop pos
    let rest := typeCharsGo full insertPosition currentPosition delayMs rem (i + 1) doc'
    (rest.1, BufEvent.ins pos [c] :: BufEvent.wait delayMs :: rest.2)

/-- Typing of one added span: run the character loop over the whole
span. -/
def typeChars (doc : List Char) (insertPosition currentPosition : Nat)
    (textToAdd : List Char) (delayMs : ℚ) : List Char × List BufEvent :=
  typeCharsGo textToAdd insertPosition currentPosition delayMs textToAdd 0 doc

/-- State threaded through stage 2 of `applyDiffWithTyping`: the live
document, `lastUnchangedText`, and `currentPosition`. -/
structure S2 where
  doc : List Char
  lastUnchanged : List Char
  currentPosition : Nat
deriving DecidableEq, Repr

/-- One iteration of stage 2 (`typingEffect.ts` lines 148–214): an
unchanged part only records `lastUnchangedText`; a removed part is
skipped; an added part first re-derives the insertion position (search
for `lastUnchangedText` from `currentPosition`, falling back to
`currentPosition`) and then types its characters one by one. -/
def stage2Step (st : S2) (p : DiffPart) (delayMs : ℚ) : S2 × List BufEvent :=
  if p.added = false ∧ p.removed = false then
    ({ st with lastUnchanged := p.value }, [])
  else if p.removed then (st, [])
  else
    let cp :=
      if st.lastUnchanged ≠ [] then
        match indexOfFrom st.doc st.lastUnchanged st.currentPosition with
        | some textPos => textPos + st.lastUnchanged.length
        | none => st.currentPosition
      else st.currentPosition
    let r := typeChars st.doc cp cp p.value delayMs
    ({ st with doc := r.1, currentPosition := cp }, r.2)

/-- Stage 2 of `applyDiffWithTyping`: fold `stage2Step` over the
recomputed diff parts. -/
def stage2 : S2 → List DiffPart → ℚ → S2 × List BufEvent
  | st, [], _ => (st, [])
  | st, p :: ps, delayMs =>
    let r := stage2Step st p delayMs
    let rest := stage2 r.1 ps delayMs
    (rest.1, r.2 ++ rest.2)

/-- The two-pass `applyDiffWithTyping` of `src/typingEffect.ts`:
`diffChars(current, target)`, a deletion pass, a fresh
`diffChars(updated, target)`, an insertion pass, and the final advisory
`revealRange` (the VS Code `lineCount` of any document is at least 1, so
the reveal always fires). Returns the final document and the ordered
event trace. -/
def applyDiffWithTyping (currentContent targetContent : List Char)
    (typingSpeed : ℚ) : List Char × List BufEvent :=
  let differences := diffChars currentContent targetContent
  let delayMs := 1000 / typingSpeed
  let s1 := stage1 currentContent differences delayMs
  let secondDifferences := diffChars s1.1 targetContent
  let s2 := stage2 ⟨s1.1, [], 0⟩ secondDifferences delayMs
  (s2.1.doc, s1.2 ++ s2.2 ++ [BufEvent.reveal])

/-- The caller's final edit in `loadSnapshotCmd`
(`snapshotCommands.ts` lines 124–130): replace the full range
(offset 0 to the current length) with the literal snapshot content. -/
def replaceWholeRange (doc target : List Char) : List Char :=
  doc.take 0 ++ target ++ doc.drop doc.length

/-- The replay entry point of `loadSnapshotCmd`
(`snapshotCommands.ts` lines 121–133): `applyDiffWithTyping` followed by
one unconditional full-buffer replace with the snapshot content. -/
def loadSnapshot (current target : List Char) (typingSpeed : ℚ) :
    List Char × List BufEvent :=
  let r := applyDiffWithTyping current target typingSpeed
  (replaceWholeRange r.1 target, r.2 ++ [BufEvent.replaceAll target])

/-- The cancellable progress task of `loadSnapshotCmd`
(`snapshotCommands.ts` lines 112–137): the task is created with
`cancellable: true`, but its `onCancellationRequested` handler only
shows an information message; the token is never passed to
`applyDiffWithTyping` and no loop polls it, so the step at which
cancellation is requested (if any) cannot influence the run. -/
def loadSnapshotWithCancel (_cancelRequestedAtStep : Option Nat)
    (current target : List Char) (typingSpeed : ℚ) :
    List Char × List BufEvent :=
  loadSnapshot current target typingSpeed

/-- Whether an event mutates the buffer (insert, delete or replace, as
opposed to a pacing delay or the advisory reveal). -/
def isMutation : BufEvent → Bool
  | BufEvent.ins _ _ => true
  | BufEvent.del _ _ => true
  | BufEvent.replaceAll _ => true
  | _ => false

/-- The buffer mutations of a trace, in order. -/
def mutationsOf (evs : List BufEvent) : List BufEvent :=
  evs.filter isMutation

/-- Apply one event to a document. -/
def applyEvent (doc : List Char) : BufEvent → List Char
  | BufEvent.ins pos text => doc.take pos ++ text ++ doc.drop pos
  | BufEvent.del pos len => doc.take pos ++ doc.drop (pos + len)
  | BufEvent.replaceAll text => text
  | _ => doc

/-- The successive document states after each buffer mutation of a
trace. -/
def mutationStates : List Char → List BufEvent → List (List Char)
  | _, [] => []
  | doc, e :: es =>
    if isMutation e then
      applyEvent doc e :: mutationStates (applyEvent doc e) es
    else mutationStates doc es

/-- The typed-unit decomposition performed by the insertion loop of the
one-pass `applyDiffWithTyping` variant (the repository's other revision
of `typingEffect.ts`, lines 134–158): a `'\r'` immediately followed by
`'\n'` is consumed as the single unit `"\r\n"`; every other character is
a unit by itself. -/
def typingUnits : List Char → List (List Char)
  | [] => []
  | [c] => [[c]]
  | c :: c2 :: rest =>
    if c = '\r' ∧ c2 = '\n' then ['\r', '\n'] :: typingUnits rest
    else [c] :: typingUnits (c2 :: rest)

/-- The insertion loop of the one-pass variant: each unit is inserted at
`currentCursorPosition` as one atomic edit, the cursor advances by the
unit's full length (`currentCursorPosition += char.length`), and one
`delayMs` pause follows each unit. Returns the document, the final
cursor, and the trace. -/
def typeUnitsV2 : List Char → Nat → List Char → ℚ →
    List Char × Nat × List BufEvent
  | [], cursor, doc, _ => (doc, cursor, [])
  | [c], cursor, doc, delayMs =>
    let unit : List Char := [c]
    let doc' := doc.take cursor ++ unit ++ doc.drop cursor
    let r := typeUnitsV2 [] (cursor + unit.length) doc' delayMs
    (r.1, r.2.1, BufEvent.ins cursor unit :: BufEvent.wait delayMs :: r.2.2)
  | c :: c2 :: rest, cursor, doc, delayMs =>
    if c = '\r' ∧ c2 = '\n' then
      let unit : List Char := ['\r', '\n']
      let doc' := doc.take cursor ++ unit ++ doc.drop cursor
      let r := typeUnitsV2 rest (cursor + unit.length) doc' delayMs
      (r.1, r.2.1, BufEvent.ins cursor unit :: BufEvent.wait delayMs :: r.2.2)
    else
      let unit : List Char := [c]
      let doc' := doc.take cursor ++ unit ++ doc.drop cursor
      let r := typeUnitsV2 (c2 :: rest) (cursor + unit.length) doc' delayMs
      (r.1, r.2.1, BufEvent.ins cursor unit :: BufEvent.wait delayMs :: r.2.2)

/-- The expected event trace for typing a list of units starting at a
given cursor: one atomic insertion and one pacing delay per unit, the
cursor advancing by each unit's full length. -/
def unitEvents : Nat → List (List Char) → ℚ → List BufEvent
  | _, [], _ => []
  | cursor, u :: us, delayMs =>
    BufEvent.ins cursor u :: BufEvent.wait delayMs ::
      unitEvents (cursor + u.length) us delayMs

/-- The `editor.autoIndent` setting is a string or a boolean. -/
inductive AutoIndentVal where
  | ofString (s : String)
  | ofBool (b : Bool)
deriving DecidableEq, Repr

/-- The four `editor.*` auto-formatting settings touched by
`typingEffect.ts`. -/
structure EditorConfig where
  formatOnType : Bool
  formatOnPaste : Bool
  formatOnSave : Bool
  autoIndent : AutoIndentVal
deriving DecidableEq, Repr

/-- A VS Code configuration target. -/
inductive ConfigTarget where
  | workspace
  | global
deriving DecidableEq, Repr

/-- `getConfigurationTarget` of `typingEffect.ts`: workspace scope when a
workspace folder is open, global otherwise. -/
def getConfigurationTarget (hasWorkspaceFolders : Bool) : ConfigTarget :=
  if hasWorkspaceFolders then ConfigTarget.workspace else ConfigTarget.global

/-- The `FormattingSettings` record saved by `disableAutoFormatting`. -/
structure FormattingSettings where
  formatOnType : Bool
  formatOnPaste : Bool
  formatOnSave : Bool
  autoIndent : AutoIndentVal
  configTarget : ConfigTarget
deriving DecidableEq, Repr

/-- The settings snapshot taken at the top of `disableAutoFormatting`. -/
def saveSettings (cfg : EditorConfig) (t : ConfigTarget) : FormattingSettings :=
  ⟨cfg.formatOnType, cfg.formatOnPaste, cfg.formatOnSave, cfg.autoIndent, t⟩

/-- The configuration after the first `k` of the four sequential
`config.update` calls of `disableAutoFormatting` (order: formatOnType,
formatOnPaste, formatOnSave, autoIndent); `k ≥ 4` means all of them. -/
def disableUpdates (cfg : EditorConfig) : Nat → EditorConfig
  | 0 => cfg
  | 1 => { cfg with formatOnType := false }
  | 2 => { cfg with formatOnType := false, formatOnPaste := false }
  | 3 => { cfg with
      formatOnType := false
      formatOnPaste := false
      formatOnSave := false }
  | _ => { cfg with
      formatOnType := false
      formatOnPaste := false
      formatOnSave := false
      autoIndent := AutoIndentVal.ofString "none" }

/-- `restoreAutoFormatting` of `typingEffect.ts`: write the four saved
values back. -/
def restoreAutoFormatting (s : FormattingSettings) (cfg : EditorConfig) :
    EditorConfig :=
  { cfg with
    formatOnType := s.formatOnType
    formatOnPaste := s.formatOnPaste
    formatOnSave := s.formatOnSave
    autoIndent := s.autoIndent }

/-- Outcome of one run of the `applyDiffWithTyping` formatting bracket:
the configuration in force while the typing loop ran, the configuration
after the `finally` block, whether the typing loop was reached, and
whether `restoreAutoFormatting` was invoked. -/
structure ConfigRunResult where
  duringReplay : EditorConfig
  final : EditorConfig
  replayRan : Bool
  restored : Bool
  completed : Bool
deriving DecidableEq, Repr

/-- The try/catch/finally structure of `applyDiffWithTyping`
(`typingEffect.ts` lines 82–235) with the typing loop abstracted to
whether it throws. `disableFailsAfter = some k` models
`disableAutoFormatting` throwing after `k` of its four updates (the
inner catch swallows the error, `originalSettings` stays `null`, the
replay proceeds, and the `finally` block skips the restore);
`none` models it succeeding, after which the `finally` block restores
the saved settings on every exit path. -/
def applyDiffWithTypingConfig (cfg : EditorConfig) (hasWorkspaceFolders : Bool)
    (disableFailsAfter : Option Nat) (bodyThrows : Bool) : ConfigRunResult :=
  match disableFailsAfter with
  | none =>
    let t := getConfigurationTarget hasWorkspaceFolders
    let saved := saveSettings cfg t
    let disabled := disableUpdates cfg 4
    { duringReplay := disabled
      final := restoreAutoFormatting saved disabled
      replayRan := true
      restored := true
      completed := !bodyThrows }
  | some k =>
    let halfDisabled := disableUpdates cfg k
    { duringReplay := halfDisabled
      final := halfDisabled
      replayRan := true
      restored := false
      completed := !bodyThrows }

/-- Concatenation of the values of the diff parts that came from the old
string (unchanged and removed parts); by the diff partition invariant
this is the old string itself. -/
def nonAddedConcat (parts : List DiffPart) : List Char :=
  ((parts.filter fun p => !p.added).map fun p => p.value).flatten

/-- Concatenation of the values of the unchanged (retained) parts: the
"skeleton" of the target that the insertion pass fills in. -/
def retainConcat (parts : List DiffPart) : List Char :=
  ((parts.filter fun p => !p.added && !p.removed).map fun p => p.value).flatten

/-- Whether, along the deletion pass, the first occurrence of every
removed part's text in the then-current buffer sits exactly where the
diff meant it (after the unchanged text already passed, of length
`pre`); this is the alignment the `indexOf`-based deletion of stage 1
silently assumes. -/
def alignedFrom : List Char → List DiffPart → Bool
  | _, [] => true
  | pre, p :: ps =>
    if p.removed then
      decide (indexOfFrom (pre ++ p.value ++ nonAddedConcat ps) p.value 0
          = some pre.length)
        && alignedFrom pre ps
    else if p.added then alignedFrom pre ps
    else alignedFrom (pre ++ p.value) ps

/-- The texts of the insertion mutations of a trace, in order. -/
def insertedTexts (evs : List BufEvent) : List (List Char) :=
  evs.filterMap fun e =>
    match e with
    | BufEvent.ins _ t => some t
    | _ => none

/-- C1. Convergence: for every current content `a`, target content `b`
and typing speed, running the replay entry point to completion
(`applyDiffWithTyping` followed by the caller's final edit) leaves the
buffer exactly equal to `b`, and the last event of the run is the
unconditional full-buffer replace with the literal target content. -/
theorem loadSnapshot_converges (a b : List Char) (cps : ℚ) :
    (loadSnapshot a b cps).1 = b ∧
      (loadSnapshot a b cps).2.getLast? = some (BufEvent.replaceAll b) := by
  constructor
  · simp [loadSnapshot, replaceWholeRange]
  · simp [loadSnapshot]

/-- C8. Determinism: the character diff and the replay driven from it
are pure functions of their inputs, so computing them twice with the
same `(a, b)` (and speed) yields identical results. -/
theorem diffChars_deterministic (a b : List Char) (cps : ℚ) :
    diffChars a b = diffChars a b ∧
      applyDiffWithTyping a b cps = applyDiffWithTyping a b cps :=
  ⟨rfl, rfl⟩

/-- C3 (evaluation at the failing input). The replay never consults the
cancellation token: the run is independent of the step at which
cancellation is requested, and with cancellation signalled before the
very first step of the `("", "hello")` replay the code still issues all
five insertions and the final full replace. -/
theorem loadSnapshot_ignores_cancellation :
    (∀ (c c' : Option Nat) (a b : List Char) (s : ℚ),
        loadSnapshotWithCancel c a b s = loadSnapshotWithCancel c' a b s) ∧
      mutationsOf (loadSnapshotWithCancel (some 0) (chars "") (chars "hello") 10).2
        = [BufEvent.ins 0 ['h'], BufEvent.ins 1 ['e'], BufEvent.ins 2 ['l'],
            BufEvent.ins 3 ['l'], BufEvent.ins 4 ['o'],
            BufEvent.replaceAll (chars "hello")] :=
  ⟨fun _ _ _ _ _ => rfl, by decide⟩

/-- C10. Formatting restoration: when `disableAutoFormatting` succeeds,
the replay runs with all four auto-formatting settings disabled and the
`finally` block writes the saved values back on every exit path (whether
or not the typing loop throws); when `disableAutoFormatting` itself
fails after `k` of its updates, the replay still proceeds and no restore
is attempted. -/
theorem applyDiff_restores_formatting (cfg : EditorConfig)
    (ws bodyThrows : Bool) (k : Nat) :
    ((applyDiffWithTypingConfig cfg ws none bodyThrows).final = cfg ∧
      (applyDiffWithTypingConfig cfg ws none bodyThrows).duringReplay
        = disableUpdates cfg 4 ∧
      (applyDiffWithTypingConfig cfg ws none bodyThrows).restored = true) ∧
    ((applyDiffWithTypingConfig cfg ws (some k) bodyThrows).replayRan = true ∧
      (applyDiffWithTypingConfig cfg ws (some k) bodyThrows).restored = false ∧
      (applyDiffWithTypingConfig cfg ws (some k) bodyThrows).final
        = disableUpdates cfg k) :=
  ⟨⟨rfl, rfl, rfl⟩, rfl, rfl, rfl⟩

/-- C6. Atomic deletion: a removed span found in the document is removed
by a single mutation covering the whole span (followed by one pause),
never character by character; in particular the `a = "abc"`, `b = ""`
replay issues exactly one mutation that removes all three characters at
once. -/
theorem deletion_is_atomic :
    (∀ (doc v : List Char) (d : ℚ) (i : Nat),
        indexOfFrom doc v 0 = some i →
        stage1Step doc ⟨v, v.length, false, true⟩ d
          = (doc.take i ++ doc.drop (i + v.length),
              [BufEvent.del i v.length, BufEvent.wait (d * 2)])) ∧
      mutationsOf (applyDiffWithTyping (chars "abc") (chars "") 10).2
        = [BufEvent.del 0 3] ∧
      (applyDiffWithTyping (chars "abc") (chars "") 10).1 = chars "" := by
  refine ⟨?_, by decide, by decide⟩
  intro doc v d i h
  simp [stage1Step, h]

/-- Witness for C6: the atomic-deletion step evaluated at a concrete
document and span. -/
theorem deletion_is_atomic_witness :
    indexOfFrom (chars "aba") (chars "b") 0 = some 1 ∧
      stage1Step (chars "aba") ⟨chars "b", (chars "b").length, false, true⟩ 100
        = ((chars "aba").take 1 ++ (chars "aba").drop (1 + (chars "b").length),
            [BufEvent.del 1 (chars "b").length, BufEvent.wait (100 * 2)]) :=
  ⟨by decide, deletion_is_atomic.1 (chars "aba") (chars "b") 100 1 (by decide)⟩

/-- C9. Silent skip of unfound deletions: when a removed part's text
does not occur in the current document, stage 1 issues no mutation and
no error and just continues with the remaining parts; in stage 2 removed
parts are always skipped without touching the state. -/
theorem removed_part_silently_skipped :
    (∀ (doc v : List Char) (ps : List DiffPart) (d : ℚ),
        indexOfFrom doc v 0 = none →
        stage1 doc (⟨v, v.length, false, true⟩ :: ps) d = stage1 doc ps d) ∧
      (∀ (st : S2) (v : List Char) (n : Nat) (ps : List DiffPart) (d : ℚ),
        stage2 st (⟨v, n, false, true⟩ :: ps) d = stage2 st ps d) := by
  constructor
  · intro doc v ps d h
    simp [stage1, stage1Step, h]
  · intro st v n ps d
    simp [stage2, stage2Step]

/-- Witness for C9: a deletion whose text occurs nowhere in the document
is skipped, at a concrete input. -/
theorem removed_part_silently_skipped_witness :
    indexOfFrom (chars "ab") (chars "q") 0 = none ∧
      stage1 (chars "ab") [⟨chars "q", 1, false, true⟩] 100
        = stage1 (chars "ab") [] 100 :=
  ⟨by decide,
    removed_part_silently_skipped.1 (chars "ab") (chars "q") [] 100 (by decide)⟩

theorem commonPrefixLen_self (l : List Char) : commonPrefixLen l l = l.length := by
  induction l with
  | nil => rfl
  | cons c cs ih => simp [commonPrefixLen, ih]

/-- The editLength-0 identity shortcut of jsdiff fires on equal inputs:
the diff of a string with itself is a single unchanged part. -/
theorem diffChars_self (a : List Char) :
    diffChars a a = [⟨a, a.length, false, false⟩] := by
  have h1 : (((-1 : Int) - 0 + 1)).toNat = 0 := rfl
  have h2 : (((-1 : Int) + 1)).toNat = 0 := rfl
  simp only [diffChars, extractCommon, h1, h2, List.drop_zero, commonPrefixLen_self]
  rw [if_pos]
  constructor <;> omega

/-- C7. No-op idempotence: the diff of `a` with itself contains no added
and no removed part, and replaying it leaves the buffer untouched and
issues zero buffer mutations (the trace holds only the advisory
reveal). -/
theorem noop_replay_no_mutation (a : List Char) (cps : ℚ) :
    (∀ p ∈ diffChars a a, p.added = false ∧ p.removed = false) ∧
      applyDiffWithTyping a a cps = (a, [BufEvent.reveal]) ∧
      mutationsOf (applyDiffWithTyping a a cps).2 = [] := by
  have hd := diffChars_self a
  have happ : applyDiffWithTyping a a cps = (a, [BufEvent.reveal]) := by
    have hs1 : stage1 a [⟨a, a.length, false, false⟩] (1000 / cps) = (a, []) := by
      simp [stage1, stage1Step]
    simp [applyDiffWithTyping, hd, hs1, stage2, stage2Step]
  refine ⟨?_, happ, by rw [happ]; rfl⟩
  intro p hp
  rw [hd] at hp
  simp only [List.mem_singleton] at hp
  subst hp
  exact ⟨rfl, rfl⟩

/-- The stage-2 character loop issues exactly one single-character
insertion per character of the typed span, in left-to-right order, each
followed by exactly one pacing delay. -/
theorem typeCharsGo_shape (full : List Char) (ip cp : Nat) (d : ℚ) :
    ∀ (rem : List Char) (i : Nat) (doc : List Char),
      ∃ ps : List Nat, ps.length = rem.length ∧
        (typeCharsGo full ip cp d rem i doc).2
          = ((ps.zip rem).map fun pc =>
              [BufEvent.ins pc.1 [pc.2], BufEvent.wait d]).flatten := by
  intro rem
  induction rem with
  | nil => exact fun i doc => ⟨[], rfl, rfl⟩
  | cons c rem ih =>
    intro i doc
    obtain ⟨ps, hlen, hev⟩ :=
      ih (i + 1)
        (doc.take (typePos full ip cp doc i)
          ++ c :: doc.drop (typePos full ip cp doc i))
    refine ⟨typePos full ip cp doc i :: ps, by simp [hlen], ?_⟩
    simp [typeCharsGo, hev]

/-- C5. Paced single-character insertion: every inserted span is typed
one character per atomic mutation, in order, each followed by one
`1000 / charsPerSecond` delay; for `a = ""`, `b = "hello"` the replay
issues exactly the five single-character insertions and the buffer
passes through the prefixes `"h"`, `"he"`, …, `"hello"`. -/
theorem insertion_paced_per_char :
    (∀ (full : List Char) (ip cp : Nat) (cps : ℚ) (rem : List Char) (i : Nat)
        (doc : List Char),
        ∃ ps : List Nat, ps.length = rem.length ∧
          (typeCharsGo full ip cp (1000 / cps) rem i doc).2
            = ((ps.zip rem).map fun pc =>
                [BufEvent.ins pc.1 [pc.2], BufEvent.wait (1000 / cps)]).flatten) ∧
      mutationsOf (applyDiffWithTyping (chars "") (chars "hello") 10).2
        = [BufEvent.ins 0 ['h'], BufEvent.ins 1 ['e'], BufEvent.ins 2 ['l'],
            BufEvent.ins 3 ['l'], BufEvent.ins 4 ['o']] ∧
      mutationStates (chars "") (applyDiffWithTyping (chars "") (chars "hello") 10).2
        = [chars "h", chars "he", chars "hel", chars "hell", chars "hello"] ∧
      (applyDiffWithTyping (chars "") (chars "hello") 10).1 = chars "hello" :=
  ⟨fun full ip cp cps => typeCharsGo_shape full ip cp (1000 / cps),
    by decide, by decide, by decide⟩

theorem nonAddedConcat_cons (p : DiffPart) (ps : List DiffPart) :
    nonAddedConcat (p :: ps)
      = (if p.added = true then [] else p.value) ++ nonAddedConcat ps := by
  cases h : p.added <;> simp [nonAddedConcat, List.filter_cons, h]

theorem retainConcat_cons (p : DiffPart) (ps : List DiffPart) :
    retainConcat (p :: ps)
      = (if p.added = false ∧ p.removed = false then p.value else [])
        ++ retainConcat ps := by
  cases ha : p.added <;> cases hr : p.removed <;>
    simp [retainConcat, List.filter_cons, ha, hr]

theorem stage1_cons (doc : List Char) (p : DiffPart) (ps : List DiffPart)
    (d : ℚ) :
    (stage1 doc (p :: ps) d).1 = (stage1 (stage1Step doc p d).1 ps d).1 := by
  simp [stage1]

/-- A removed part whose text's first occurrence in the buffer sits
exactly after the prefix `pre` is deleted in place, leaving
`pre ++ rest`. -/
theorem stage1Step_removed_found (pre rest : List Char) (p : DiffPart)
    (d : ℚ) (hr : p.removed = true)
    (h : indexOfFrom (pre ++ (p.value ++ rest)) p.value 0 = some pre.length) :
    (stage1Step (pre ++ (p.value ++ rest)) p d).1 = pre ++ rest := by
  have hcond : ¬(p.added = false ∧ p.removed = false) := by simp [hr]
  have h1 : (pre ++ (p.value ++ rest)).take pre.length = pre :=
    List.take_left _ _
  have h2 : (pre ++ (p.value ++ rest)).drop (pre.length + p.value.length)
      = rest := by
    rw [← List.append_assoc, ← List.length_append]
    exact List.drop_left _ _
  simp only [stage1Step, if_neg hcond, hr, if_true, h]
  simp [h1, h2]

/-- Invariant of the deletion pass: as long as every removed part's text
first occurs in the then-current buffer exactly at the position the diff
meant, the pass peels off precisely the removed spans, leaving the
retained skeleton. -/
theorem stage1_aligned (d : ℚ) :
    ∀ (parts : List DiffPart) (pre : List Char),
      (parts.all fun p => !(p.added && p.removed)) = true →
      alignedFrom pre parts = true →
      (stage1 (pre ++ nonAddedConcat parts) parts d).1 = pre ++ retainConcat parts := by
  intro parts
  induction parts with
  | nil => intro pre _ _; simp [stage1, nonAddedConcat, retainConcat]
  | cons p ps ih =>
    intro pre hall halign
    rw [List.all_cons, Bool.and_eq_true] at hall
    obtain ⟨hp, hps⟩ := hall
    cases hadd : p.added with
    | true =>
      have hrem : p.removed = false := by
        cases hrem : p.removed
        · rfl
        · rw [hadd, hrem] at hp; simp at hp
      simp [alignedFrom, hadd, hrem] at halign
      rw [stage1_cons]
      have hstep : (stage1Step (pre ++ nonAddedConcat (p :: ps)) p d).1
          = pre ++ nonAddedConcat (p :: ps) := by
        simp [stage1Step, hadd, hrem]
      rw [hstep, nonAddedConcat_cons, retainConcat_cons, hadd, hrem]
      simpa using ih pre hps halign
    | false =>
      cases hrem : p.removed with
      | true =>
        simp [alignedFrom, hrem] at halign
        obtain ⟨hidx, hal⟩ := halign
        rw [stage1_cons]
        have hdoc : pre ++ nonAddedConcat (p :: ps)
            = pre ++ (p.value ++ nonAddedConcat ps) := by
          rw [nonAddedConcat_cons, hadd]
          simp
        have hstep : (stage1Step (pre ++ nonAddedConcat (p :: ps)) p d).1
            = pre ++ nonAddedConcat ps := by
          rw [hdoc]
          exact stage1Step_removed_found pre (nonAddedConcat ps) p d hrem hidx
        rw [hstep, retainConcat_cons, hadd, hrem]
        simpa using ih pre hps hal
      | false =>
        simp [alignedFrom, hadd, hrem] at halign
        rw [stage1_cons]
        have hstep : (stage1Step (pre ++ nonAddedConcat (p :: ps)) p d).1
            = pre ++ nonAddedConcat (p :: ps) := by
          simp [stage1Step, hadd, hrem]
        rw [hstep, nonAddedConcat_cons, retainConcat_cons, hadd, hrem]
        simpa using ih (pre ++ p.value) hps halign

/-- C2 (amended). Deletion-pass postcondition under alignment: whenever
the parts of `diffChars a b` partition `a` (the partition invariant) and
every removed part's text first occurs in the then-current buffer at its
diff position, the deletion stage leaves exactly the concatenation of
the retained spans (the skeleton of `b`); the unconditional claim fails
because the `indexOf` search can hit an earlier occurrence of the
removed text. -/
theorem deletion_pass_skeleton (a b : List Char) (d : ℚ)
    (hx : ((diffChars a b).all fun p => !(p.added && p.removed)) = true)
    (hpart : nonAddedConcat (diffChars a b) = a)
    (halign : alignedFrom [] (diffChars a b) = true) :
    (stage1 a (diffChars a b) d).1 = retainConcat (diffChars a b) := by
  have h := stage1_aligned d (diffChars a b) [] hx halign
  rw [hpart] at h
  simpa using h

/-- Witness for C2: the amended deletion-pass postcondition at
`a = "ax"`, `b = "x"`. -/
theorem deletion_pass_skeleton_witness :
    (((diffChars (chars "ax") (chars "x")).all fun p => !(p.added && p.removed))
        = true) ∧
      nonAddedConcat (diffChars (chars "ax") (chars "x")) = chars "ax" ∧
      alignedFrom [] (diffChars (chars "ax") (chars "x")) = true ∧
      (stage1 (chars "ax") (diffChars (chars "ax") (chars "x")) 100).1
        = retainConcat (diffChars (chars "ax") (chars "x")) :=
  ⟨by decide, by decide, by decide,
    deletion_pass_skeleton (chars "ax") (chars "x") 100
      (by decide) (by decide) (by decide)⟩

/-- Counterexample to C2 as stated: for `a = "aba"`, `b = "ab"` the diff
retains `"ab"` and removes the trailing `"a"`, but the `indexOf` search
deletes the first `"a"` of the buffer, leaving `"ba"` instead of the
retained skeleton `"ab"` — the postcondition fails exactly when the
deleted text occurs at an earlier position in the buffer. -/
theorem deletion_pass_not_skeleton :
    (stage1 (chars "aba") (diffChars (chars "aba") (chars "ab")) 100).1
        = chars "ba" ∧
      retainConcat (diffChars (chars "aba") (chars "ab")) = chars "ab" ∧
      (stage1 (chars "aba") (diffChars (chars "aba") (chars "ab")) 100).1
        ≠ retainConcat (diffChars (chars "aba") (chars "ab")) :=
  ⟨by decide, by decide, by decide⟩

theorem typingUnits_flatten : ∀ t : List Char, (typingUnits t).flatten = t := by
  intro t
  induction t using typingUnits.induct with
  | case1 => rfl
  | case2 c => rfl
  | case3 c c2 rest h ih =>
    obtain ⟨h1, h2⟩ := h
    subst h1; subst h2
    rw [typingUnits, if_pos ⟨rfl, rfl⟩]
    simp [ih]
  | case4 c c2 rest h ih => rw [typingUnits, if_neg h]; simp [ih]

theorem typingUnits_head : ∀ (t u : List Char) (us : List (List Char)),
    typingUnits t = u :: us → u.head? = t.head? := by
  intro t
  match t with
  | [] => intro u us h; simp [typingUnits] at h
  | [c] =>
    intro u us h
    simp only [typingUnits, List.cons.injEq] at h
    rw [← h.1]
  | c :: c2 :: rest =>
    intro u us h
    by_cases hc : c = '\r' ∧ c2 = '\n'
    · rw [typingUnits, if_pos hc] at h
      rw [← (List.cons.injEq _ _ _ _).mp h |>.1, hc.1]
      rfl
    · rw [typingUnits, if_neg hc] at h
      rw [← (List.cons.injEq _ _ _ _).mp h |>.1]
      rfl

theorem typingUnits_shape : ∀ t u : List Char,
    u ∈ typingUnits t → u = ['\r', '\n'] ∨ u.length = 1 := by
  intro t
  induction t using typingUnits.induct with
  | case1 => intro u h; simp [typingUnits] at h
  | case2 c =>
    intro u h
    simp only [typingUnits, List.mem_singleton] at h
    right; simp [h]
  | case3 c c2 rest h ih =>
    intro u hu
    rw [typingUnits, if_pos h] at hu
    rcases List.mem_cons.mp hu with h1 | h1
    · left; exact h1
    · exact ih u h1
  | case4 c c2 rest h ih =>
    intro u hu
    rw [typingUnits, if_neg h] at hu
    rcases List.mem_cons.mp hu with h1 | h1
    · right; simp [h1]
    · exact ih u h1

theorem typingUnits_noSplit : ∀ t : List Char,
    List.Chain' (fun u v => ¬(u.getLast? = some '\r' ∧ v.head? = some '\n'))
      (typingUnits t) := by
  intro t
  induction t using typingUnits.induct with
  | case1 => simp [typingUnits]
  | case2 c => simp [typingUnits]
  | case3 c c2 rest h ih =>
    rw [typingUnits, if_pos h]
    refine List.Chain'.cons' ih ?_
    intro y _
    intro hcontra
    simp at hcontra
  | case4 c c2 rest h ih =>
    rw [typingUnits, if_neg h]
    refine List.Chain'.cons' ih ?_
    intro y hy
    cases htu : typingUnits (c2 :: rest) with
    | nil => rw [htu] at hy; simp at hy
    | cons u us =>
      rw [htu] at hy
      simp only [List.head?_cons, Option.mem_def, Option.some.injEq] at hy
      have hyhead : y.head? = some c2 := by
        rw [← hy]
        exact typingUnits_head (c2 :: rest) u us htu
      intro hcontra
      obtain ⟨hl, hh⟩ := hcontra
      simp only [List.getLast?_singleton, Option.some.injEq] at hl
      rw [hyhead] at hh
      simp only [Option.some.injEq] at hh
      exact h ⟨hl, hh⟩

theorem typeUnitsV2_units : ∀ (t : List Char) (cursor : Nat) (doc : List Char)
    (d : ℚ),
    (typeUnitsV2 t cursor doc d).2.2 = unitEvents cursor (typingUnits t) d ∧
      (typeUnitsV2 t cursor doc d).2.1 = cursor + t.length := by
  intro t
  induction t using typingUnits.induct with
  | case1 => intro cursor doc d; simp [typeUnitsV2, typingUnits, unitEvents]
  | case2 c =>
    intro cursor doc d
    simp [typeUnitsV2, typingUnits, unitEvents]
  | case3 c c2 rest h ih =>
    intro cursor doc d
    obtain ⟨hc, hc2⟩ := h
    subst hc; subst hc2
    rw [typingUnits, if_pos ⟨rfl, rfl⟩]
    rw [show typeUnitsV2 ('\r' :: '\n' :: rest) cursor doc d
        = (if ('\r' : Char) = '\r' ∧ ('\n' : Char) = '\n' then _ else _) from rfl,
      if_pos ⟨rfl, rfl⟩]
    have ih1 := fun cu dc dd => (ih cu dc dd).1
    have ih2 := fun cu dc dd => (ih cu dc dd).2
    constructor
    · simp [unitEvents, ih1]
    · simp [ih2]
      omega
  | case4 c c2 rest h ih =>
    intro cursor doc d
    rw [typingUnits, if_neg h]
    rw [show typeUnitsV2 (c :: c2 :: rest) cursor doc d
        = (if c = '\r' ∧ c2 = '\n' then _ else _) from rfl, if_neg h]
    have ih1 := fun cu dc dd => (ih cu dc dd).1
    have ih2 := fun cu dc dd => (ih cu dc dd).2
    constructor
    · simp [unitEvents, ih1]
    · simp [ih2]
      omega

/-- C4 (amended). CR+LF indivisibility holds in the one-pass variant of
`applyDiffWithTyping`: its insertion loop types one unit per atomic
mutation with one pacing delay each, the cursor advancing by the unit's
full length; the units partition the inserted text, every unit is either
the pair `"\r\n"` or a single character, and a lone `'\r'` unit is never
followed by a unit starting with `'\n'` — so a CR+LF pair is never split
there. (The two-pass `applyDiffWithTyping` of `typingEffect.ts`, by
contrast, splits the pair — see the counterexample.) -/
theorem crlf_indivisible_one_pass :
    (∀ (t : List Char) (cursor : Nat) (doc : List Char) (d : ℚ),
        (typeUnitsV2 t cursor doc d).2.2 = unitEvents cursor (typingUnits t) d ∧
          (typeUnitsV2 t cursor doc d).2.1 = cursor + t.length) ∧
      (∀ t : List Char, (typingUnits t).flatten = t) ∧
      (∀ t u : List Char, u ∈ typingUnits t → u = ['\r', '\n'] ∨ u.length = 1) ∧
      (∀ t : List Char,
        List.Chain' (fun u v => ¬(u.getLast? = some '\r' ∧ v.head? = some '\n'))
          (typingUnits t)) :=
  ⟨typeUnitsV2_units, typingUnits_flatten, typingUnits_shape, typingUnits_noSplit⟩

/-- Counterexample to C4 as stated: replaying `a = ""`, `b = "\r\n"` with
the two-pass `applyDiffWithTyping` of `typingEffect.ts` issues two
separate single-character insertions — first `'\r'`, then `'\n'` — never
a single two-character mutation, so the CR+LF pair is split. -/
theorem crlf_split_by_two_pass :
    insertedTexts (applyDiffWithTyping (chars "") ['\r', '\n'] 10).2
        = [['\r'], ['\n']] ∧
      mutationsOf (applyDiffWithTyping (chars "") ['\r', '\n'] 10).2
        = [BufEvent.ins 0 ['\r'], BufEvent.ins 1 ['\n']] :=
  ⟨by decide, by decide⟩

end PTools
